import Mathlib

/-!
# LULESH (CUDA) domain header: a verification development

Shallow embedding of `src/cuda/src/lulesh.h` and `src/cuda/src/utilities.h`.

* Machine integers are natural numbers / integers with explicit reduction
  modulo `2 ^ 64` (`size_t`) and `2 ^ 32` (`int`, `unsigned int`).
* `Index_t` and `Int_t` are the C type `int`; values of that type are modelled
  as `Int` together with the range predicate `isIndex_t`.
* Member functions of `Domain` whose bodies are not part of the two source
  files are modelled from the specification and are marked as such.
-/

namespace Lulesh

/-! ## Scalar types (`lulesh.h` lines 12-22) -/

/-- Macro `#define DOUBLE_PRECISION` (line 4). -/
def DOUBLE_PRECISION : Bool := true

/-- Value of `sizeof(real4)`: `float`. -/
def sizeof_real4 : Nat := 4

/-- Value of `sizeof(real8)`: `double`. -/
def sizeof_real8 : Nat := 8

/-- Value of `sizeof(Real_t)`, chosen by the `#ifdef DOUBLE_PRECISION` of lines 18-22. -/
def sizeof_Real_t : Nat := if DOUBLE_PRECISION then sizeof_real8 else sizeof_real4

/-- Range of `Index_t` / `Int_t` (`typedef int`, 32-bit two's complement). -/
def isIndex_t (n : Int) : Prop := -(2 : Int) ^ 31 ≤ n ∧ n ≤ (2 : Int) ^ 31 - 1

instance (n : Int) : Decidable (isIndex_t n) := by
  unfold isIndex_t; exact inferInstance

/-! ## Unsigned 64-bit (`size_t`) arithmetic -/

/-- Conversion of a signed integer to `size_t`: reduction modulo `2 ^ 64`. -/
def toSizeT (n : Int) : Nat := (n % (2 : Int) ^ 64).toNat

/-- Operation `a + b` in `size_t`. -/
def addSizeT (a b : Nat) : Nat := (a + b) % 2 ^ 64

/-- Operation `a - b` in `size_t`. -/
def subSizeT (a b : Nat) : Nat := (a % 2 ^ 64 + (2 ^ 64 - b % 2 ^ 64)) % 2 ^ 64

/-- Operation `~a` in `size_t`. -/
def notSizeT (a : Nat) : Nat := 2 ^ 64 - 1 - a % 2 ^ 64

/-- Operation `a & b` in `size_t`. -/
def andSizeT (a b : Nat) : Nat := Nat.land (a % 2 ^ 64) (b % 2 ^ 64)

/-- Conversion of an unsigned value to `int` (storing into an `Index_t` field):
reduction modulo `2 ^ 32`, read as two's complement. -/
def toIndex_t (v : Nat) : Int :=
  if v % 2 ^ 32 < 2 ^ 31 then ((v % 2 ^ 32 : Nat) : Int)
  else ((v % 2 ^ 32 : Nat) : Int) - (2 : Int) ^ 32

/-- Value an `int` (`Index_t`, `Int_t`) holds when the mathematical result of an
expression is `v`: reduction modulo `2 ^ 32`, read as two's complement. -/
def wrapInt_t (v : Int) : Int := toIndex_t (v % (2 : Int) ^ 32).toNat

/-! ## Cache alignment macros (`lulesh.h` lines 207-212) -/

/-- Value of `128 / sizeof(Real_t)` for a given width of `Real_t`, in `size_t`. -/
def cachePadFor (sizeofReal : Nat) : Nat := 128 / sizeofReal

/-- Macro `#define CACHE_COHERENCE_PAD_REAL (128 / sizeof(Real_t))`. -/
def CACHE_COHERENCE_PAD_REAL : Nat := cachePadFor sizeof_Real_t

/-- Body of `CACHE_ALIGN_REAL` for a pad width `P`:
`(((n) + (P - 1)) & ~(P - 1))`, every operation in `size_t`. -/
def cacheAlign (P : Nat) (n : Int) : Nat :=
  andSizeT (addSizeT (toSizeT n) (subSizeT P 1)) (notSizeT (subSizeT P 1))

/-- Macro `#define CACHE_ALIGN_REAL(n)
  (((n) + (CACHE_COHERENCE_PAD_REAL - 1)) & ~(CACHE_COHERENCE_PAD_REAL - 1))`. -/
def CACHE_ALIGN_REAL (n : Int) : Nat := cacheAlign CACHE_COHERENCE_PAD_REAL n

/-! ## Message tags and limits (`lulesh.h` lines 214-219) -/

/-- Macro `#define MSG_COMM_SBN 1024`. -/
def MSG_COMM_SBN : Int := 1024

/-- Macro `#define MSG_SYNC_POS_VEL 2048`. -/
def MSG_SYNC_POS_VEL : Int := 2048

/-- Macro `#define MSG_MONOQ 3072`. -/
def MSG_MONOQ : Int := 3072

/-- Macro `#define MAX_FIELDS_PER_MPI_COMM 6`. -/
def MAX_FIELDS_PER_MPI_COMM : Nat := 6

/-! ## Terminal conditions (`lulesh.h` lines 6-10) -/

/-- Enumerator `VolumeError = -1`. -/
def VolumeError : Int := -1

/-- Enumerator `QStopError = -2`. -/
def QStopError : Int := -2

/-- Enumerator `LFileError = -3`. -/
def LFileError : Int := -3

/-! ## `class Domain` (`lulesh.h` lines 24-203)

Only the integer bookkeeping of the class takes part in the statements below.
Arrays reached through `Index_t*` / `Int_t*` are lists; counts and indices,
which are non-negative `int`s, are natural numbers; costs and the communication
sizes are integers, kept within the 32-bit range by `wrapInt_t` where the model
stores them. -/

/-- Integer bookkeeping fields of `class Domain`. -/
structure Domain where
  /-- Field `Index_t sizeX` and its siblings (lines 160-162). -/
  sizeX : Int
  sizeY : Int
  sizeZ : Int
  /-- Field `Index_t maxPlaneSize` (line 163). -/
  maxPlaneSize : Int
  /-- Field `Index_t maxEdgeSize` (line 164). -/
  maxEdgeSize : Int
  /-- Field `Index_t numElem` (line 166). -/
  numElem : Nat
  /-- Field `Index_t padded_numElem` (line 167). -/
  padded_numElem : Int
  /-- Field `Index_t numNode` (line 169). -/
  numNode : Nat
  /-- Field `Index_t padded_numNode` (line 170). -/
  padded_numNode : Int
  /-- Field `Int_t numReg`: number of regions (line 179). -/
  numReg : Nat
  /-- Field `Int_t balance`: load balance between regions of a domain (line 180). -/
  balance : Int
  /-- Field `Int_t cost`: imbalance cost (line 181). -/
  cost : Int
  /-- Field `Int_t* regElemSize`: size of region sets (line 182). -/
  regElemSize : List Nat
  /-- Field `Int_t* regCSR`: beginning and end of each region (line 183). -/
  regCSR : List Nat
  /-- Field `Int_t* regReps`: rep number per region (line 184). -/
  regReps : List Int
  /-- Field `Index_t* regNumList`: region number per domain element (line 185). -/
  regNumList : List Nat
  /-- Field `Index_t* regElemlist`: region indexset (line 186). -/
  regElemlist : List Nat
  /-- Field `Index_t* regSorted`: index of sorted regions (line 187). -/
  regSorted : List Nat

/-! ## `Domain::sortRegions` (declared at `lulesh.h` line 26) -/

/-- Scheduling precedence of region `a` over region `b` for a cost vector:
`a` has the larger cost, or the costs are equal and `a` is the lower index. -/
def schedBefore (costs : List Int) (a b : Nat) : Prop :=
  costs.getD b 0 < costs.getD a 0 ∨ (costs.getD a 0 = costs.getD b 0 ∧ a ≤ b)

instance (costs : List Int) : DecidableRel (schedBefore costs) := by
  intro a b; unfold schedBefore; exact inferInstance

instance (costs : List Int) : IsTotal Nat (schedBefore costs) :=
  ⟨fun a b => by unfold schedBefore; omega⟩

instance (costs : List Int) : IsTrans Nat (schedBefore costs) :=
  ⟨fun a b c hab hbc => by unfold schedBefore at *; omega⟩

/-- Modelled from the spec: the body of `Domain::sortRegions` is not part of the
source files (only its declaration is). Spec 4.2: it "sorts region indices by
descending cost, ties broken by ascending original region index (a stable
largest-cost-first ... ordering)"; spec 6: "`sortRegions(costs) → order` → pure
function returning the descending-cost permutation". The two reference
parameters of the declaration are returned as a pair: the cost vector as it was
received and the new contents of `regSorted_h`. -/
def sortRegions (d : Domain) (regReps_h : List Int) (regSorted_h : List Nat) :
    List Int × List Nat :=
  (regReps_h, List.insertionSort (schedBefore regReps_h) (List.range d.numReg))

/-! ## `Domain::CreateRegionIndexSets` (declared at `lulesh.h` line 27) -/

/-- Modelled from the spec: element count of region `r` in uniform mode. Spec 4.2:
"regions are equal-sized chunks of the element index space", and, when the
region count exceeds the element count, "one element per region for the first
elements and empty regions for the remainder": every region receives
`numElem / nr` elements and the first `numElem % nr` regions one more. -/
def uniformRegionSize (numElem nr r : Nat) : Nat :=
  numElem / nr + (if r < numElem % nr then 1 else 0)

/-- Modelled from the spec: region of every element in uniform mode, the chunks of
`uniformRegionSize` laid out one after the other over the element indices. -/
def uniformRegNumList (numElem nr : Nat) : List Nat :=
  (List.range nr).flatMap (fun r => List.replicate (uniformRegionSize numElem nr r) r)

/-- Modelled from the spec: region cost multipliers. Spec 4.2: uniform mode has
"cost multiplier = 1 for all regions", imbalanced mode gives region `r` the
"cost multiplier r+1". -/
def regionCosts (nr : Nat) (balance : Int) : List Int :=
  if balance = 0 then List.replicate nr 1
  else (List.range nr).map (fun r => (r : Int) + 1)

/-- An assignment of the `numElem` elements to regions that respects spec 4.2:
every element lies in exactly one of the `nr` regions and every region
receives an element ("each region count ≥ 1 when feasible"). -/
def validAssignment (numElem nr : Nat) (regNumList : List Nat) : Prop :=
  regNumList.length = numElem ∧ (∀ x ∈ regNumList, x < nr) ∧ (∀ r, r < nr → r ∈ regNumList)

instance (numElem nr : Nat) (regNumList : List Nat) :
    Decidable (validAssignment numElem nr regNumList) := by
  unfold validAssignment; exact inferInstance

/-- Modelled from the spec: the bookkeeping `Domain::CreateRegionIndexSets` leaves
once every element has its region (the body is not part of the source files).
Spec 4.2: "elements are then stably reordered into region-major order; the CSR
offsets record region boundaries within this reordering". -/
def regionIndexSets (d : Domain) (nr : Nat) (balance : Int) (regNumList : List Nat) : Domain :=
  let regElemSize := (List.range nr).map (fun r => regNumList.count r)
  { d with
    numReg := nr
    balance := balance
    regReps := regionCosts nr balance
    regNumList := regNumList
    regElemSize := regElemSize
    regCSR := List.scanl (fun off sz => off + sz) 0 regElemSize
    regElemlist := (List.range nr).flatMap (fun r =>
      (List.range d.numElem).filter (fun i => decide (regNumList.getD i nr = r))) }

/-- Modelled from the spec: `Domain::CreateRegionIndexSets(nr, 0)`, the uniform mode.
The imbalanced mode is not modelled: the spec leaves its count formula open
("the exact count formula is a design choice", "randomized"). -/
def CreateRegionIndexSets_uniform (d : Domain) (nr : Nat) : Domain :=
  regionIndexSets d nr 0 (uniformRegNumList d.numElem nr)

/-! ## `Domain::SetupCommBuffers` (declared at `lulesh.h` line 196) -/

/-- Buffer-size/tag plan of one exchange phase (spec 4.3). -/
structure CommPlan where
  /-- First tag of the phase. -/
  tagBase : Int
  /-- Capacity of a face-shared buffer. -/
  faceSize : Int
  /-- Capacity of an edge-shared buffer. -/
  edgeSize : Int
  /-- Capacity of a corner-shared buffer. -/
  cornerSize : Int
  /-- Most scalar fields packed into one message. -/
  maxFields : Nat
deriving DecidableEq

/-- Modelled from the spec: the body of `Domain::SetupCommBuffers` is not part of the
source files (only its declaration is). Spec 4.3: "a face-shared buffer holds
(edge node count)² field values; an edge-shared buffer holds (edge node count)
values". The two capacities are kept in `maxPlaneSize` and `maxEdgeSize`, which
`lulesh.h` lines 163-164 declare as `Index_t`: what is stored is the 32-bit
value of `edgeNodes * edgeNodes` and of `edgeNodes`. -/
def SetupCommBuffers (d : Domain) (edgeNodes : Int) : Domain :=
  { d with
    maxPlaneSize := wrapInt_t (edgeNodes * edgeNodes)
    maxEdgeSize := wrapInt_t edgeNodes }

/-- Modelled from the spec: the plan of one exchange phase read off a domain
(spec 4.3): face and edge capacity as stored, "a corner-shared buffer holds 1
value", fields packed "up to a fixed maximum field count per message". -/
def phasePlan (d : Domain) (tag : Int) : CommPlan :=
  { tagBase := tag
    faceSize := d.maxPlaneSize
    edgeSize := d.maxEdgeSize
    cornerSize := 1
    maxFields := MAX_FIELDS_PER_MPI_COMM }

/-- Modelled from the spec: the three exchange phases of spec 4.3, boundary
accumulation, position/velocity synchronization and monotonic limiter, each
with the tag namespace `lulesh.h` reserves for it. -/
def commPlans (d : Domain) : List CommPlan :=
  [phasePlan d MSG_COMM_SBN, phasePlan d MSG_SYNC_POS_VEL, phasePlan d MSG_MONOQ]

/-! ## `__check` and `checkCudaErrors` (`utilities.h` lines 6-14) -/

/-- How a call ends: it returns to its caller, or the process ends in `exit`. -/
inductive Termination where
  | returned
  | exited (status : Int)
deriving DecidableEq

/-- Cast `static_cast<unsigned int>(result)`: reduction modulo `2 ^ 32`. -/
def toUnsignedInt (result : Int) : Nat := (result % (2 : Int) ^ 32).toNat

/-- Rendering of a `%d` conversion whose argument holds the 32 bits `v`. -/
def printf_d (v : Nat) : String := toString (toIndex_t v)

/-- The line `fprintf` writes for the format
`"CUDA error at %s:%d code=%d \"%s\" \n"` and the arguments
`file, line, static_cast<unsigned int>(result), func`. -/
def checkDiagnostic (result : Int) (func file : String) (line : Int) : String :=
  "CUDA error at " ++ file ++ ":" ++ toString line ++ " code=" ++
    printf_d (toUnsignedInt result) ++ " \"" ++ func ++ "\" \n"

/-- Function `template <typename T> void __check(T result, char const *const func,
const char *const file, int const line)`: the text written to `stderr` and the
way the call ends. `EXIT_FAILURE` comes from `<cstdlib>` and is a parameter. -/
def __check (EXIT_FAILURE : Int) (result : Int) (func file : String) (line : Int) :
    List String × Termination :=
  if result ≠ 0 then
    ([checkDiagnostic result func file line], Termination.exited EXIT_FAILURE)
  else
    ([], Termination.returned)

/-- Macro `#define checkCudaErrors(val) __check((val), #val, __FILE__, __LINE__)`:
`valText` is the stringified argument, `file` and `line` the expansion site. -/
def checkCudaErrors (EXIT_FAILURE : Int) (val : Int) (valText file : String) (line : Int) :
    List String × Termination :=
  __check EXIT_FAILURE val valText file line

/-! ## Bit-level lemmas for the alignment mask -/

theorem land_mask_eq (k m : Nat) (hk : k ≤ 64) (hm : m < 2 ^ 64) :
    Nat.land m (2 ^ 64 - 1 - (2 ^ k - 1)) = 2 ^ k * (m / 2 ^ k) := by
  have hpos : 0 < 2 ^ k := Nat.pow_pos (by decide)
  have hle : 2 ^ k ≤ 2 ^ 64 := Nat.pow_le_pow_right (by decide) hk
  have hmask : 2 ^ 64 - 1 - (2 ^ k - 1) = 2 ^ 64 - ((2 ^ k - 1) + 1) := by omega
  have hlt : 2 ^ k - 1 < 2 ^ 64 := by omega
  apply Nat.eq_of_testBit_eq
  intro i
  show (m &&& (2 ^ 64 - 1 - (2 ^ k - 1))).testBit i = _
  rw [Nat.testBit_and, hmask, Nat.testBit_two_pow_sub_succ hlt, Nat.testBit_two_pow_sub_one,
    Nat.testBit_mul_pow_two]
  by_cases hik : i < k
  · have : ¬ (i ≥ k) := by omega
    simp [hik, this]
  · have hge : i ≥ k := by omega
    by_cases hi : i < 64
    · have : m / 2 ^ k = m >>> k := (Nat.shiftRight_eq_div_pow m k).symm
      rw [this, Nat.testBit_shiftRight]
      have : k + (i - k) = i := by omega
      simp [hik, hge, hi, this]
    · have h1 : m.testBit i = false := by
        apply Nat.testBit_lt_two_pow
        exact lt_of_lt_of_le hm (Nat.pow_le_pow_right (by decide) (by omega))
      have h2 : (m / 2 ^ k).testBit (i - k) = false := by
        have : m / 2 ^ k = m >>> k := (Nat.shiftRight_eq_div_pow m k).symm
        rw [this, Nat.testBit_shiftRight]
        have : k + (i - k) = i := by omega
        rw [this]; exact h1
      simp [h1, h2]

theorem ceilDiv_bounds (P a : Nat) (hP : 0 < P) :
    a ≤ P * ((a + (P - 1)) / P) ∧ P * ((a + (P - 1)) / P) < a + P := by
  have h1 := Nat.div_add_mod (a + (P - 1)) P
  have h2 := Nat.mod_lt (a + (P - 1)) hP
  omega

theorem ceilDiv_least (P a m : Nat) (hP : 0 < P) (hm : P ∣ m) (ham : a ≤ m) :
    P * ((a + (P - 1)) / P) ≤ m := by
  obtain ⟨c, rfl⟩ := hm
  apply Nat.mul_le_mul_left
  have : a + (P - 1) < P * (c + 1) := by
    rw [Nat.mul_succ]; omega
  have := (Nat.div_lt_iff_lt_mul hP).2 (by rw [Nat.mul_comm] at this; exact this)
  omega

theorem ceilDiv_mul (P q : Nat) (hP : 0 < P) : (P * q + (P - 1)) / P = q := by
  rw [Nat.mul_add_div hP]
  have : (P - 1) / P = 0 := Nat.div_eq_of_lt (by omega)
  omega

theorem ceilDiv_rat (P a : Nat) (hP : 0 < P) :
    ⌈(a : Rat) / (P : Rat)⌉ = (((a + (P - 1)) / P : Nat) : Int) := by
  obtain ⟨h1, h2⟩ := ceilDiv_bounds P a hP
  have hPq : (0 : Rat) < (P : Rat) := by exact_mod_cast hP
  generalize (a + (P - 1)) / P = q at h1 h2 ⊢
  have e1 : (a : Rat) ≤ (P : Rat) * (q : Rat) := by exact_mod_cast h1
  have e2 : (P : Rat) * (q : Rat) < (a : Rat) + (P : Rat) := by exact_mod_cast h2
  rw [Int.ceil_eq_iff]
  constructor
  · rw [lt_div_iff₀ hPq]
    push_cast
    linarith
  · rw [div_le_iff₀ hPq]
    push_cast
    linarith

theorem cacheAlign_eq (k : Nat) (hk : k < 64) (n : Int) (h0 : 0 ≤ n)
    (hn : n + (2 : Int) ^ k ≤ (2 : Int) ^ 64) :
    cacheAlign (2 ^ k) n = 2 ^ k * ((n.toNat + (2 ^ k - 1)) / 2 ^ k) := by
  have hpos : 0 < 2 ^ k := Nat.pow_pos (by decide)
  have hle : 2 ^ k ≤ 2 ^ 63 := Nat.pow_le_pow_right (by decide) (by omega)
  have hcast : ((2 ^ k : Nat) : Int) = (2 : Int) ^ k := by push_cast; rfl
  have hn' : n.toNat + 2 ^ k ≤ 2 ^ 64 := by
    have := Int.toNat_of_nonneg h0
    omega
  have h1 : toSizeT n = n.toNat := by
    unfold toSizeT
    rw [Int.emod_eq_of_lt h0 (by omega)]
  have h2 : subSizeT (2 ^ k) 1 = 2 ^ k - 1 := by
    unfold subSizeT
    omega
  unfold cacheAlign
  rw [h1, h2]
  unfold addSizeT notSizeT andSizeT
  have h3 : (n.toNat + (2 ^ k - 1)) % 2 ^ 64 = n.toNat + (2 ^ k - 1) :=
    Nat.mod_eq_of_lt (by omega)
  have h4 : (2 ^ k - 1) % 2 ^ 64 = 2 ^ k - 1 := Nat.mod_eq_of_lt (by omega)
  have h5 : (2 ^ 64 - 1 - (2 ^ k - 1)) % 2 ^ 64 = 2 ^ 64 - 1 - (2 ^ k - 1) :=
    Nat.mod_eq_of_lt (by omega)
  rw [h3, h3, h4, h5]
  exact land_mask_eq k _ (by omega) (by omega)

theorem CACHE_COHERENCE_PAD_REAL_eq : CACHE_COHERENCE_PAD_REAL = 2 ^ 4 := by decide

theorem CACHE_ALIGN_REAL_eq (n : Int) (h0 : 0 ≤ n) (hn : n ≤ (2 : Int) ^ 31 - 1) :
    CACHE_ALIGN_REAL n = 16 * ((n.toNat + 15) / 16) := by
  unfold CACHE_ALIGN_REAL
  rw [CACHE_COHERENCE_PAD_REAL_eq]
  have := cacheAlign_eq 4 (by decide) n h0 (by norm_num; omega)
  simpa using this

/-! ## Padded counts -/

/-- C1: for every non-negative count `n` of type `Index_t`, the padded count
`CACHE_ALIGN_REAL(n)`, computed in unsigned 64-bit arithmetic with pad width
`CACHE_COHERENCE_PAD_REAL = 128 / sizeof(Real_t) = 16`, is greater than or equal
to `n` and is divisible by 16. -/
theorem padded_count_ge_and_aligned (n : Int) (h0 : 0 ≤ n) (hn : isIndex_t n) :
    CACHE_COHERENCE_PAD_REAL = 16 ∧ sizeof_Real_t = 8 ∧
      n ≤ (CACHE_ALIGN_REAL n : Int) ∧ 16 ∣ CACHE_ALIGN_REAL n := by
  have heq := CACHE_ALIGN_REAL_eq n h0 hn.2
  have hnn := Int.toNat_of_nonneg h0
  refine ⟨by decide, by decide, ?_, ?_⟩
  · rw [heq]; omega
  · rw [heq]; exact Dvd.intro _ rfl

theorem padded_count_ge_and_aligned_witness :
    (0 : Int) ≤ 27 ∧ isIndex_t 27 ∧
      (CACHE_COHERENCE_PAD_REAL = 16 ∧ sizeof_Real_t = 8 ∧
        (27 : Int) ≤ (CACHE_ALIGN_REAL 27 : Int) ∧ 16 ∣ CACHE_ALIGN_REAL 27) :=
  ⟨by decide, by decide, padded_count_ge_and_aligned 27 (by decide) (by decide)⟩

/-- C9: for every pad width `P = 2 ^ k` (16 for the 8-byte `Real_t`, 32 for the
4-byte one) and every non-negative `n` whose sum with `P` does not leave the
64-bit range, the mask expression `((n + (P-1)) & ~(P-1))` equals
`P * ceil(n / P)`: it is the least multiple of `P` that is `>= n`, it exceeds
`n` by less than `P`, it equals `n` exactly when `P` divides `n`, and applying
the expression again changes nothing. -/
theorem cacheAlign_least_multiple (k : Nat) (hk : k < 64) (n : Int) (h0 : 0 ≤ n)
    (hn : n + (2 : Int) ^ k ≤ (2 : Int) ^ 64) :
    cachePadFor sizeof_real8 = 2 ^ 4 ∧ cachePadFor sizeof_real4 = 2 ^ 5 ∧
    cacheAlign (2 ^ k) n = 2 ^ k * ((n.toNat + (2 ^ k - 1)) / 2 ^ k) ∧
    ((cacheAlign (2 ^ k) n : Nat) : Rat) = (2 : Rat) ^ k * ⌈(n : Rat) / (2 : Rat) ^ k⌉ ∧
    (2 ^ k ∣ cacheAlign (2 ^ k) n ∧ n ≤ (cacheAlign (2 ^ k) n : Int) ∧
      ∀ m : Nat, 2 ^ k ∣ m → n ≤ (m : Int) → cacheAlign (2 ^ k) n ≤ m) ∧
    (cacheAlign (2 ^ k) n : Int) - n < (2 : Int) ^ k ∧
    ((cacheAlign (2 ^ k) n : Int) = n ↔ (2 : Int) ^ k ∣ n) ∧
    cacheAlign (2 ^ k) (cacheAlign (2 ^ k) n : Int) = cacheAlign (2 ^ k) n := by
  have hpos : 0 < 2 ^ k := Nat.pow_pos (by decide)
  have hcast : ((2 ^ k : Nat) : Int) = (2 : Int) ^ k := by push_cast; rfl
  have hnn := Int.toNat_of_nonneg h0
  have heq := cacheAlign_eq k hk n h0 hn
  obtain ⟨hb1, hb2⟩ := ceilDiv_bounds (2 ^ k) n.toNat hpos
  have hrat := ceilDiv_rat (2 ^ k) n.toNat hpos
  have hdvd : 2 ^ k ∣ cacheAlign (2 ^ k) n := by rw [heq]; exact Dvd.intro _ rfl
  have hsplit : 2 ^ 64 = 2 ^ k * 2 ^ (64 - k) := by
    rw [← Nat.pow_add]; congr 1; omega
  -- the padded value plus the pad width still fits into 64 bits
  have hfit : 2 ^ k * ((n.toNat + (2 ^ k - 1)) / 2 ^ k) + 2 ^ k ≤ 2 ^ 64 := by
    have hlt : 2 ^ k * ((n.toNat + (2 ^ k - 1)) / 2 ^ k) < 2 ^ k * 2 ^ (64 - k) := by
      rw [← hsplit]; omega
    have hq := Nat.lt_of_mul_lt_mul_left hlt
    have := Nat.mul_le_mul_left (2 ^ k) (Nat.succ_le_of_lt hq)
    rw [Nat.mul_succ, ← hsplit] at this
    exact this
  refine ⟨by decide, by decide, heq, ?_, ⟨hdvd, ?_, ?_⟩, ?_, ?_, ?_⟩
  · rw [heq]
    have hn_rat : (n : Rat) = ((n.toNat : Nat) : Rat) := by
      have : n = ((n.toNat : Nat) : Int) := hnn.symm
      exact_mod_cast congrArg (fun z : Int => (z : Rat)) this
    have hP_rat : (2 : Rat) ^ k = ((2 ^ k : Nat) : Rat) := by push_cast; rfl
    rw [hn_rat, hP_rat, hrat, Nat.cast_mul, Int.cast_natCast]
  · rw [heq]; omega
  · intro m hm hnm
    rw [heq]
    exact ceilDiv_least (2 ^ k) n.toNat m hpos hm (by omega)
  · rw [heq]; omega
  · rw [heq]
    constructor
    · intro h
      refine ⟨(((n.toNat + (2 ^ k - 1)) / 2 ^ k : Nat) : Int), ?_⟩
      rw [← hcast, ← Nat.cast_mul]
      exact h.symm
    · rintro ⟨c, hc⟩
      have hc0 : 0 ≤ c := by
        by_contra hneg
        have hpz : (0 : Int) < (2 : Int) ^ k := by rw [← hcast]; exact_mod_cast hpos
        have : (2 : Int) ^ k * c < 0 := Int.mul_neg_of_pos_of_neg hpz (by omega)
        omega
      have hnat : n.toNat = 2 ^ k * c.toNat := by
        have hcn := Int.toNat_of_nonneg hc0
        have : ((n.toNat : Nat) : Int) = ((2 ^ k * c.toNat : Nat) : Int) := by
          push_cast
          rw [hnn, hcn, hc]
        exact_mod_cast this
      rw [hnat, ceilDiv_mul _ _ hpos, ← hnat]
      exact hnn
  · rw [heq]
    have h2 := cacheAlign_eq k hk
      ((2 ^ k * ((n.toNat + (2 ^ k - 1)) / 2 ^ k) : Nat) : Int) (Int.natCast_nonneg _)
      (by rw [← hcast]; exact_mod_cast hfit)
    rw [h2, Int.toNat_natCast, ceilDiv_mul _ _ hpos]

theorem cacheAlign_least_multiple_witness :
    (4 < 64) ∧ (0 : Int) ≤ 27 ∧ (27 : Int) + (2 : Int) ^ 4 ≤ (2 : Int) ^ 64 ∧
      cacheAlign (2 ^ 4) 27 = 2 ^ 4 * (((27 : Int).toNat + (2 ^ 4 - 1)) / 2 ^ 4) :=
  ⟨by decide, by decide, by decide,
    (cacheAlign_least_multiple 4 (by decide) 27 (by decide) (by decide)).2.2.1⟩

/-- C10: for a non-negative `Index_t` count `n`, the padded count
`CACHE_ALIGN_REAL(n)` (pad width 16) fits the `Index_t` fields
`padded_numElem` / `padded_numNode` (is `<= 2^31 - 1`) if and only if
`n <= 2^31 - 16 = 2147483632`; for every larger `n` the macro's value is `2^31`,
and stored as a 32-bit `int` it is a negative number smaller than `n`. -/
theorem padded_count_representable (n : Int) (h0 : 0 ≤ n) (hn : isIndex_t n) :
    (2 : Int) ^ 31 - 16 = 2147483632 ∧
    ((CACHE_ALIGN_REAL n : Int) ≤ (2 : Int) ^ 31 - 1 ↔ n ≤ (2 : Int) ^ 31 - 16) ∧
    (n ≤ (2 : Int) ^ 31 - 16 → toIndex_t (CACHE_ALIGN_REAL n) = (CACHE_ALIGN_REAL n : Int)) ∧
    ((2 : Int) ^ 31 - 16 < n →
      CACHE_ALIGN_REAL n = 2 ^ 31 ∧ toIndex_t (CACHE_ALIGN_REAL n) = -(2 : Int) ^ 31 ∧
        toIndex_t (CACHE_ALIGN_REAL n) < 0 ∧ toIndex_t (CACHE_ALIGN_REAL n) < n) := by
  have heq := CACHE_ALIGN_REAL_eq n h0 hn.2
  have hnn := Int.toNat_of_nonneg h0
  have hup := hn.2
  refine ⟨by norm_num, ?_, ?_, ?_⟩
  · rw [heq]; omega
  · intro hle
    have hlt : CACHE_ALIGN_REAL n < 2 ^ 31 := by rw [heq]; omega
    unfold toIndex_t
    have hmod : CACHE_ALIGN_REAL n % 2 ^ 32 = CACHE_ALIGN_REAL n := Nat.mod_eq_of_lt (by omega)
    rw [hmod, if_pos hlt]
  · intro hgt
    have hval : CACHE_ALIGN_REAL n = 2 ^ 31 := by rw [heq]; omega
    have hst : toIndex_t (CACHE_ALIGN_REAL n) = -(2 : Int) ^ 31 := by
      rw [hval]; decide
    refine ⟨hval, hst, ?_, ?_⟩
    · rw [hst]; norm_num
    · rw [hst]; omega

theorem padded_count_representable_witness :
    (0 : Int) ≤ 2147483640 ∧ isIndex_t 2147483640 ∧
      CACHE_ALIGN_REAL 2147483640 = 2 ^ 31 ∧
      toIndex_t (CACHE_ALIGN_REAL 2147483640) < 2147483640 :=
  ⟨by decide, by decide,
    ((padded_count_representable 2147483640 (by decide) (by decide)).2.2.2 (by decide)).1,
    ((padded_count_representable 2147483640 (by decide) (by decide)).2.2.2 (by decide)).2.2.2⟩

/-! ## Message tags and terminal conditions -/

/-- C5: the three reserved message-tag bases `MSG_COMM_SBN`, `MSG_SYNC_POS_VEL`
and `MSG_MONOQ` are pairwise distinct, consecutive bases are exactly 1024
apart, and the half-open ranges `[base, base + 1024)` of the three phases are
pairwise disjoint: no tag value belongs to two phases. -/
theorem message_tag_ranges_disjoint :
    (MSG_COMM_SBN ≠ MSG_SYNC_POS_VEL ∧ MSG_SYNC_POS_VEL ≠ MSG_MONOQ ∧
      MSG_COMM_SBN ≠ MSG_MONOQ) ∧
    (MSG_SYNC_POS_VEL - MSG_COMM_SBN = 1024 ∧ MSG_MONOQ - MSG_SYNC_POS_VEL = 1024) ∧
    (∀ t : Int,
      ¬ ((MSG_COMM_SBN ≤ t ∧ t < MSG_COMM_SBN + 1024) ∧
          (MSG_SYNC_POS_VEL ≤ t ∧ t < MSG_SYNC_POS_VEL + 1024)) ∧
      ¬ ((MSG_SYNC_POS_VEL ≤ t ∧ t < MSG_SYNC_POS_VEL + 1024) ∧
          (MSG_MONOQ ≤ t ∧ t < MSG_MONOQ + 1024)) ∧
      ¬ ((MSG_COMM_SBN ≤ t ∧ t < MSG_COMM_SBN + 1024) ∧
          (MSG_MONOQ ≤ t ∧ t < MSG_MONOQ + 1024))) := by
  unfold MSG_COMM_SBN MSG_SYNC_POS_VEL MSG_MONOQ
  refine ⟨⟨by decide, by decide, by decide⟩, ⟨by decide, by decide⟩, ?_⟩
  intro t
  omega

/-- C7: the terminal conditions `VolumeError`, `QStopError` and `LFileError`
are pairwise distinct enumerated values, and each differs from 0, the value
of a normal finish. -/
theorem terminal_conditions_distinct :
    (VolumeError ≠ QStopError ∧ VolumeError ≠ LFileError ∧ QStopError ≠ LFileError) ∧
    (VolumeError ≠ 0 ∧ QStopError ≠ 0 ∧ LFileError ≠ 0) := by
  unfold VolumeError QStopError LFileError
  decide

/-! ## Scheduling order of regions -/

/-- C2: for every cost vector of length `numReg`, `Domain::sortRegions` leaves in
`regSorted` a permutation of the region indices `0..numReg-1` in which, for any
two positions `i < j`, the cost of the region at `i` is at least the cost of the
region at `j`, and regions of equal cost appear in ascending original index;
the cost vector is returned unchanged and the order depends on nothing else. -/
theorem sortRegions_descending_stable (d : Domain) (regReps_h : List Int)
    (regSorted_h : List Nat) (hlen : regReps_h.length = d.numReg) :
    (sortRegions d regReps_h regSorted_h).2.Perm (List.range d.numReg) ∧
    (∀ r ∈ (sortRegions d regReps_h regSorted_h).2, r < regReps_h.length) ∧
    (∀ (i j : Nat) (hi : i < (sortRegions d regReps_h regSorted_h).2.length)
        (hj : j < (sortRegions d regReps_h regSorted_h).2.length), i < j →
      regReps_h.getD ((sortRegions d regReps_h regSorted_h).2.get ⟨j, hj⟩) 0 ≤
          regReps_h.getD ((sortRegions d regReps_h regSorted_h).2.get ⟨i, hi⟩) 0 ∧
      (regReps_h.getD ((sortRegions d regReps_h regSorted_h).2.get ⟨i, hi⟩) 0 =
          regReps_h.getD ((sortRegions d regReps_h regSorted_h).2.get ⟨j, hj⟩) 0 →
        (sortRegions d regReps_h regSorted_h).2.get ⟨i, hi⟩ <
          (sortRegions d regReps_h regSorted_h).2.get ⟨j, hj⟩)) ∧
    (sortRegions d regReps_h regSorted_h).1 = regReps_h ∧
    (∀ (d2 : Domain) (s2 : List Nat), d2.numReg = d.numReg →
      sortRegions d2 regReps_h s2 = sortRegions d regReps_h regSorted_h) := by
  have hperm : (sortRegions d regReps_h regSorted_h).2.Perm (List.range d.numReg) :=
    List.perm_insertionSort (schedBefore regReps_h) (List.range d.numReg)
  have hsorted : List.Pairwise (schedBefore regReps_h) (sortRegions d regReps_h regSorted_h).2 :=
    List.sorted_insertionSort (schedBefore regReps_h) (List.range d.numReg)
  have hnodup : (sortRegions d regReps_h regSorted_h).2.Nodup :=
    hperm.nodup_iff.2 (List.nodup_range d.numReg)
  refine ⟨hperm, ?_, ?_, rfl, ?_⟩
  · intro r hr
    have := hperm.mem_iff.1 hr
    rw [List.mem_range] at this
    omega
  · intro i j hi hj hij
    have hrel := List.pairwise_iff_get.1 hsorted ⟨i, hi⟩ ⟨j, hj⟩ hij
    have hne : (sortRegions d regReps_h regSorted_h).2.get ⟨i, hi⟩ ≠
        (sortRegions d regReps_h regSorted_h).2.get ⟨j, hj⟩ := by
      intro heq
      have := (List.Nodup.get_inj_iff hnodup).1 heq
      have := congrArg Fin.val this
      simp at this
      omega
    unfold schedBefore at hrel
    constructor
    · omega
    · intro hc; omega
  · intro d2 s2 h2
    unfold sortRegions
    rw [h2]

theorem sortRegions_descending_stable_witness :
    ([1, 2, 3] : List Int).length = 3 ∧
      (sortRegions ⟨0, 0, 0, 0, 0, 100, 0, 0, 0, 3, 1, 1, [], [], [], [], [], []⟩
        [1, 2, 3] []).2.Perm (List.range 3) ∧
      (sortRegions ⟨0, 0, 0, 0, 0, 100, 0, 0, 0, 3, 1, 1, [], [], [], [], [], []⟩
        [1, 2, 3] []).2 = [2, 1, 0] :=
  ⟨by decide,
    (sortRegions_descending_stable ⟨0, 0, 0, 0, 0, 100, 0, 0, 0, 3, 1, 1, [], [], [], [], [], []⟩
      [1, 2, 3] [] (by decide)).1,
    by decide⟩

/-! ## Communication buffers -/

theorem wrapInt_t_isIndex_t (v : Int) : isIndex_t (wrapInt_t v) := by
  unfold wrapInt_t toIndex_t isIndex_t
  have hlt : (v % (2 : Int) ^ 32).toNat % 2 ^ 32 < 2 ^ 32 := Nat.mod_lt _ (by norm_num)
  split <;> constructor <;> omega

/-- Whatever edge node count `SetupCommBuffers` receives, the two capacities
it stores are values of `Index_t`. -/
theorem SetupCommBuffers_fields_representable (d : Domain) (e : Int) :
    isIndex_t (SetupCommBuffers d e).maxPlaneSize ∧
      isIndex_t (SetupCommBuffers d e).maxEdgeSize :=
  ⟨wrapInt_t_isIndex_t _, wrapInt_t_isIndex_t _⟩

/-- C8: the most scalar fields packed into one message,
`MAX_FIELDS_PER_MPI_COMM`, is the constant 6; whatever the domain and whatever
edge node count is given to `SetupCommBuffers`, every exchange phase keeps that
same limit. -/
theorem max_fields_per_message_fixed :
    MAX_FIELDS_PER_MPI_COMM = 6 ∧
    (∀ (d : Domain) (e : Int), ∀ p ∈ commPlans (SetupCommBuffers d e),
      p.maxFields = MAX_FIELDS_PER_MPI_COMM ∧ p.maxFields = 6) ∧
    (∀ (d : Domain), ∀ p ∈ commPlans d, p.maxFields = 6) := by
  refine ⟨rfl, ?_, ?_⟩
  · intro d e p hp
    simp only [commPlans, List.mem_cons, List.mem_singleton, List.not_mem_nil, or_false] at hp
    rcases hp with rfl | rfl | rfl <;> exact ⟨rfl, rfl⟩
  · intro d p hp
    simp only [commPlans, List.mem_cons, List.mem_singleton, List.not_mem_nil, or_false] at hp
    rcases hp with rfl | rfl | rfl <;> rfl

/-! ## Fatal platform failures -/

theorem printf_d_toUnsignedInt (result : Int) (h : isIndex_t result) :
    printf_d (toUnsignedInt result) = toString result := by
  obtain ⟨hlo, hhi⟩ := h
  unfold printf_d toUnsignedInt toIndex_t
  congr 1
  have hmod0 : 0 ≤ result % (2 : Int) ^ 32 := Int.emod_nonneg _ (by norm_num)
  have hmodlt : result % (2 : Int) ^ 32 < (2 : Int) ^ 32 := Int.emod_lt_of_pos _ (by norm_num)
  have hnat : (((result % (2 : Int) ^ 32).toNat : Nat) : Int) = result % (2 : Int) ^ 32 :=
    Int.toNat_of_nonneg hmod0
  have hlt : (result % (2 : Int) ^ 32).toNat < 2 ^ 32 := by omega
  rw [Nat.mod_eq_of_lt hlt]
  split <;> omega

/-- C6: for every result code given to `__check` (as `checkCudaErrors` does): a
zero code returns normally and writes nothing; a non-zero code writes exactly
one diagnostic to `stderr`, made of the file name, the line number, the
numeric code and the text of the checked expression, and then ends the
process with `EXIT_FAILURE`, so the caller never continues. -/
theorem check_reports_and_terminates (EXIT_FAILURE : Int) (result : Int)
    (func file : String) (line : Int) :
    checkCudaErrors EXIT_FAILURE result func file line =
      __check EXIT_FAILURE result func file line ∧
    (result = 0 →
      __check EXIT_FAILURE result func file line = ([], Termination.returned)) ∧
    (result ≠ 0 →
      (__check EXIT_FAILURE result func file line).1 =
        ["CUDA error at " ++ file ++ ":" ++ toString line ++ " code=" ++
          printf_d (toUnsignedInt result) ++ " \"" ++ func ++ "\" \n"] ∧
      (isIndex_t result → printf_d (toUnsignedInt result) = toString result) ∧
      (__check EXIT_FAILURE result func file line).2 = Termination.exited EXIT_FAILURE ∧
      (__check EXIT_FAILURE result func file line).2 ≠ Termination.returned) := by
  refine ⟨rfl, ?_, ?_⟩
  · intro h
    simp [__check, h]
  · intro h
    refine ⟨?_, printf_d_toUnsignedInt result, ?_, ?_⟩
    · simp [__check, h, checkDiagnostic]
    · simp [__check, h]
    · simp [__check, h]

theorem check_reports_and_terminates_witness :
    (700 : Int) ≠ 0 ∧
      (__check 1 700 "cudaMalloc(&p, n)" "lulesh.cu" 42).1 =
        ["CUDA error at lulesh.cu:42 code=700 \"cudaMalloc(&p, n)\" \n"] ∧
      (__check 1 700 "cudaMalloc(&p, n)" "lulesh.cu" 42).2 = Termination.exited 1 ∧
      __check 1 0 "cudaFree(p)" "lulesh.cu" 43 = ([], Termination.returned) :=
  ⟨by decide, by decide,
    ((check_reports_and_terminates 1 700 "cudaMalloc(&p, n)" "lulesh.cu" 42).2.2
      (by decide)).2.2.1,
    (check_reports_and_terminates 1 0 "cudaFree(p)" "lulesh.cu" 43).2.1 rfl⟩

/-! ## Region index sets -/

theorem length_filter_lt_succ (a : List Nat) (m : Nat) :
    (a.filter (fun x => decide (x < m + 1))).length =
      (a.filter (fun x => decide (x < m))).length + a.count m := by
  induction a with
  | nil => simp
  | cons x xs ih =>
    rw [List.count_cons]
    by_cases h1 : x < m
    · have h2 : x < m + 1 := by omega
      have h3 : (x == m) = false := by simp; omega
      simp [h1, h2, h3, ih]; omega
    · by_cases h2 : x = m
      · subst h2
        simp [ih]; omega
      · have h3 : ¬ x < m + 1 := by omega
        have h4 : (x == m) = false := by simp; omega
        simp [h1, h3, h4, ih]

theorem sum_count_range (a : List Nat) (m : Nat) :
    ((List.range m).map (fun r => a.count r)).sum =
      (a.filter (fun x => decide (x < m))).length := by
  induction m with
  | zero => simp
  | succ m ih =>
    rw [List.range_succ, List.map_append, List.sum_append, ih, length_filter_lt_succ]
    simp

theorem filter_lt_succ_perm (f : Nat → Nat) (L : List Nat) (m : Nat) :
    (L.filter (fun i => decide (f i < m)) ++ L.filter (fun i => decide (f i = m))).Perm
      (L.filter (fun i => decide (f i < m + 1))) := by
  induction L with
  | nil => simp
  | cons x xs ih =>
    by_cases h1 : f x < m
    · have h2 : f x < m + 1 := by omega
      have h3 : ¬ f x = m := by omega
      simp only [List.filter_cons, h1, h2, h3, decide_True, decide_False, if_true,
        Bool.false_eq_true, if_false, List.cons_append]
      exact List.Perm.cons _ ih
    · by_cases h2 : f x = m
      · have h3 : f x < m + 1 := by omega
        have e1 : (x :: xs).filter (fun i => decide (f i < m)) =
            xs.filter (fun i => decide (f i < m)) :=
          List.filter_cons_of_neg (by simpa using h1)
        have e2 : (x :: xs).filter (fun i => decide (f i = m)) =
            x :: xs.filter (fun i => decide (f i = m)) :=
          List.filter_cons_of_pos (by simpa using h2)
        have e3 : (x :: xs).filter (fun i => decide (f i < m + 1)) =
            x :: xs.filter (fun i => decide (f i < m + 1)) :=
          List.filter_cons_of_pos (by simpa using h3)
        rw [e1, e2, e3]
        exact List.perm_middle.trans (List.Perm.cons _ ih)
      · have h3 : ¬ f x < m + 1 := by omega
        simp only [List.filter_cons, h1, h2, h3, decide_True, decide_False, if_true,
          Bool.false_eq_true, if_false]
        exact ih

theorem flatMap_filter_perm (f : Nat → Nat) (L : List Nat) (m : Nat) :
    ((List.range m).flatMap (fun r => L.filter (fun i => decide (f i = r)))).Perm
      (L.filter (fun i => decide (f i < m))) := by
  induction m with
  | zero => simp
  | succ m ih =>
    rw [List.range_succ, List.flatMap_append]
    refine List.Perm.trans ?_ (filter_lt_succ_perm f L m)
    refine List.Perm.append ih ?_
    simp

theorem scanl_offsets_chain (sizes : List Nat) (start : Nat) (h : ∀ s ∈ sizes, 1 ≤ s) :
    List.Chain' (fun a b => a < b) (List.scanl (fun off sz => off + sz) start sizes) := by
  induction sizes generalizing start with
  | nil => simp
  | cons x xs ih =>
    have hx : 1 ≤ x := h x (List.mem_cons_self _ _)
    have hxs : ∀ s ∈ xs, 1 ≤ s := fun s hs => h s (List.mem_cons_of_mem _ hs)
    have ih2 := ih (start + x) hxs
    cases xs with
    | nil => simp; omega
    | cons y ys =>
      simp only [List.scanl_cons, List.singleton_append] at ih2 ⊢
      rw [List.chain'_cons]
      exact ⟨by omega, ih2⟩

theorem scanl_offsets_getLast (sizes : List Nat) (start : Nat) :
    (List.scanl (fun off sz => off + sz) start sizes).getLast? = some (start + sizes.sum) := by
  induction sizes generalizing start with
  | nil => simp
  | cons x xs ih =>
    have ih2 := ih (start + x)
    cases xs with
    | nil => simp
    | cons y ys =>
      simp only [List.scanl_cons, List.singleton_append] at ih2 ⊢
      rw [List.getLast?_cons_cons, ih2]
      simp; omega

theorem scanl_offsets_head (sizes : List Nat) (start : Nat) :
    (List.scanl (fun off sz => off + sz) start sizes).head? = some start := by
  cases sizes <;> simp

theorem sum_uniformRegionSize (q rem m : Nat) :
    ((List.range m).map (fun r => q + (if r < rem then 1 else 0))).sum = m * q + min m rem := by
  induction m with
  | zero => simp
  | succ m ih =>
    rw [List.range_succ, List.map_append, List.sum_append, ih]
    simp only [List.map_cons, List.map_nil, List.sum_cons, List.sum_nil, Nat.succ_mul]
    split <;> omega

theorem validAssignment_uniform (numElem nr : Nat) (h1 : 1 ≤ nr) (h2 : nr ≤ numElem) :
    validAssignment numElem nr (uniformRegNumList numElem nr) := by
  refine ⟨?_, ?_, ?_⟩
  · unfold uniformRegNumList
    rw [List.length_flatMap]
    have hfun : (List.length ∘ fun r => List.replicate (uniformRegionSize numElem nr r) r) =
        (fun r => numElem / nr + (if r < numElem % nr then 1 else 0)) := by
      funext r; simp [uniformRegionSize]
    rw [hfun, sum_uniformRegionSize]
    have hmod := Nat.mod_lt numElem (show 0 < nr by omega)
    have hdm := Nat.div_add_mod numElem nr
    rw [Nat.min_eq_right (by omega)]
    exact hdm
  · intro x hx
    unfold uniformRegNumList at hx
    rw [List.mem_flatMap] at hx
    obtain ⟨r, hr, hxr⟩ := hx
    rw [List.mem_replicate] at hxr
    rw [List.mem_range] at hr
    omega
  · intro r hr
    unfold uniformRegNumList
    rw [List.mem_flatMap]
    refine ⟨r, List.mem_range.2 hr, ?_⟩
    rw [List.mem_replicate]
    have hq : 0 < numElem / nr := Nat.div_pos h2 (by omega)
    refine ⟨?_, rfl⟩
    unfold uniformRegionSize
    omega

theorem region_bookkeeping (numElem nr : Nat) (a : List Nat) (hv : validAssignment numElem nr a) :
    ((List.range nr).map (fun r => a.count r)).sum = numElem ∧
    (List.scanl (fun off sz => off + sz) 0
      ((List.range nr).map (fun r => a.count r))).head? = some 0 ∧
    (List.scanl (fun off sz => off + sz) 0
      ((List.range nr).map (fun r => a.count r))).getLast? = some numElem ∧
    List.Pairwise (fun x y => x < y) (List.scanl (fun off sz => off + sz) 0
      ((List.range nr).map (fun r => a.count r))) ∧
    ((List.range nr).flatMap (fun r =>
      (List.range numElem).filter (fun i => decide (a.getD i nr = r)))).Perm
        (List.range numElem) := by
  obtain ⟨hlen, hlt, hmem⟩ := hv
  have hsum : ((List.range nr).map (fun r => a.count r)).sum = numElem := by
    rw [sum_count_range, ← hlen]
    congr 1
    rw [List.filter_eq_self]
    intro x hx
    simpa using hlt x hx
  have hpos : ∀ s ∈ (List.range nr).map (fun r => a.count r), 1 ≤ s := by
    intro s hs
    rw [List.mem_map] at hs
    obtain ⟨r, hr, rfl⟩ := hs
    exact List.count_pos_iff.2 (hmem r (List.mem_range.1 hr))
  refine ⟨hsum, scanl_offsets_head _ _, ?_, ?_, ?_⟩
  · rw [scanl_offsets_getLast, hsum, Nat.zero_add]
  · exact List.chain'_iff_pairwise.1 (scanl_offsets_chain _ _ hpos)
  · refine (flatMap_filter_perm (fun i => a.getD i nr) (List.range numElem) nr).trans ?_
    have : (List.range numElem).filter (fun i => decide (a.getD i nr < nr)) =
        List.range numElem := by
      rw [List.filter_eq_self]
      intro i hi
      rw [List.mem_range] at hi
      have hi2 : i < a.length := by omega
      rw [List.getD_eq_getElem a nr hi2]
      simpa using hlt _ (List.getElem_mem hi2)
    rw [this]

/-- Uniform mode of the region index sets: with `1 <= nr <= numElem`, the region
sizes sum to `numElem`, the offsets `regCSR` strictly increase from 0 to
`numElem`, and `regElemlist` is a permutation of `[0, numElem)`. -/
theorem CreateRegionIndexSets_uniform_partition (d : Domain) (nr : Nat)
    (h1 : 1 ≤ nr) (h2 : nr ≤ d.numElem) :
    (CreateRegionIndexSets_uniform d nr).numElem = d.numElem ∧
    (CreateRegionIndexSets_uniform d nr).numReg = nr ∧
    (CreateRegionIndexSets_uniform d nr).regElemSize.length = nr ∧
    (CreateRegionIndexSets_uniform d nr).regElemSize.sum = d.numElem ∧
    (CreateRegionIndexSets_uniform d nr).regCSR.length = nr + 1 ∧
    (CreateRegionIndexSets_uniform d nr).regCSR.head? = some 0 ∧
    (CreateRegionIndexSets_uniform d nr).regCSR.getLast? = some d.numElem ∧
    List.Pairwise (fun x y => x < y) (CreateRegionIndexSets_uniform d nr).regCSR ∧
    (CreateRegionIndexSets_uniform d nr).regElemlist.Perm (List.range d.numElem) := by
  obtain ⟨hsum, hhead, hlast, hpair, hperm⟩ :=
    region_bookkeeping _ _ _ (validAssignment_uniform d.numElem nr h1 h2)
  refine ⟨rfl, rfl, ?_, hsum, ?_, hhead, hlast, hpair, hperm⟩
  · simp [CreateRegionIndexSets_uniform, regionIndexSets]
  · simp [CreateRegionIndexSets_uniform, regionIndexSets, List.length_scanl]

end Lulesh
